import Mathlib

set_option maxHeartbeats 1000000
set_option maxRecDepth 10000

/-!
Verification of `src/entt/core/algorithm.hpp`: the three sorting strategies
`std_sort`, `insertion_sort` and `radix_sort<Pass, N>` of namespace `entt`.

Buffers and ranges are modelled as Lean lists; machine integers are modelled
as `Nat` (counts, indices and keys in the source are non-negative and no
claim concerns integer overflow). The fallible part of the embedding is the
random-access write `out_begin[out_index[bucket]++] = *it`, which is
modelled with an explicit bounds check returning `Option`.
-/

namespace Entt

universe u

variable {α : Type u}

/-! ## Insertion sort engine

Translated from `insertion_sort::operator()` (algorithm.hpp lines 56-70).
The processed prefix `[first, it)` is carried in reverse order, so that the
inner loop `for(; pre > first && compare(value, *(pre-1)); --pre)`, which
scans the prefix from its right end, becomes structural recursion. -/

/-- Translated from the inner loop of `insertion_sort::operator()`: walk the
reversed prefix from the element just before `value`; while
`compare(value, *(pre-1))` holds keep shifting, and place `value` when the
comparison first fails (or the front of the range is reached). -/
def insertRev (compare : α → α → Bool) (value : α) : List α → List α
  | [] => [value]
  | h :: t => if compare value h then h :: insertRev compare value t else value :: h :: t

/-- Translated from the outer loop `for(auto it = first+1; it < last; ++it)`
of `insertion_sort::operator()`: `acc` is the already-processed prefix in
reverse order, the second argument the elements still to process. -/
def insertLoop (compare : α → α → Bool) : List α → List α → List α
  | acc, [] => acc.reverse
  | acc, y :: ys => insertLoop compare (insertRev compare y acc) ys

/-- Translated from `insertion_sort::operator()` (lines 56-70): behind the
guard `if(first < last)` the outer loop starts at `first+1`, so the initial
processed prefix is the single element `*first`. -/
def insertion_sort (compare : α → α → Bool) : List α → List α
  | [] => []
  | x :: xs => insertLoop compare [x] xs

/-! ## Comparison sort adapter

The wrapped primitive `std::sort` is not part of this repository. -/

/-- Modelled from the spec: `std_sort` (algorithm.hpp lines 22-40) is a thin
callable wrapping the external general-purpose comparison sort `std::sort`,
whose implementation is missing from the repository; the wrapper forwards
the range and the comparison object to the wrapped primitive unchanged. -/
def std_sort (sortImpl : (α → α → Bool) → List α → List α)
    (compare : α → α → Bool) (l : List α) : List α :=
  sortImpl compare l

/-- Non-decreasing under `compare`: no later element compares less than an
earlier one. -/
def sortedBy (compare : α → α → Bool) (l : List α) : Prop :=
  l.Pairwise (fun a b => compare b a = false)

/-- Strict weak order, stated for a boolean comparator: irreflexivity,
transitivity, and the splitting property (equivalent to transitivity of
incomparability in the presence of the first two). -/
def IsSWO (compare : α → α → Bool) : Prop :=
  (∀ a, compare a a = false) ∧
  (∀ a b c, compare a b = true → compare b c = true → compare a c = true) ∧
  (∀ a b c, compare a b = true → compare a c = true ∨ compare c b = true)

/-- Equivalence under a comparator: neither element compares less than the
other. -/
def eqv (compare : α → α → Bool) (a b : α) : Bool := !compare a b && !compare b a

/-- Modelled from the spec: the contract of the external sort primitive
wrapped by `std_sort` — for a strict-weak-order comparator it reorders the
range into an ascending permutation, with no stability guarantee. -/
def WrappedSortContract (sortImpl : (α → α → Bool) → List α → List α) : Prop :=
  ∀ compare l, IsSWO compare →
    List.Perm (sortImpl compare l) l ∧ sortedBy compare (sortImpl compare l)

/-! ## Radix sort engine

Translated from `radix_sort<Pass, N>` (algorithm.hpp lines 79-149). -/

/-- Translated from `constexpr int bit_mask = (1 << Pass) - 1` (line 89). -/
def bit_mask (Pass : Nat) : Nat := (1 <<< Pass) - 1

/-- Translated from `(getter(*it) >> start_bit) & bit_mask` (lines 92, 102). -/
def bucketOf (Pass start_bit : Nat) (key : Nat) : Nat :=
  (key >>> start_bit) &&& bit_mask Pass

/-- Translated from the tally loop of `radix_sort::sort` (lines 91-94):
`++bucket_count[(getter(*it) >> start_bit) & bit_mask]` over the source in
order, starting from the zero-initialised array
`int bucket_count[n_buckets] = {0}`. -/
def countLoop (Pass start_bit : Nat) (getter : α → Nat) :
    List α → List Nat → List Nat
  | [], bucket_count => bucket_count
  | x :: xs, bucket_count =>
      countLoop Pass start_bit getter xs
        (bucket_count.set (bucketOf Pass start_bit (getter x))
          (bucket_count.getD (bucketOf Pass start_bit (getter x)) 0 + 1))

/-- Translated from the prefix-sum loop of `radix_sort::sort` (lines 96-99):
`out_index[0] = 0; out_index[i] = out_index[i-1] + bucket_count[i-1]`, i.e.
the exclusive prefix sums of `bucket_count` starting from the given
accumulator. -/
def exclusiveScan : List Nat → Nat → List Nat
  | [], _ => []
  | c :: cs, s => s :: exclusiveScan cs (s + c)

/-- Translated from the scatter loop of `radix_sort::sort` (lines 101-104):
`out_begin[out_index[bucket]++] = *it` over the source in order. The write
through `out_begin` is random access into the destination buffer, so it is
modelled with an explicit bounds check; an out-of-range index yields
`none`. -/
def writeLoop (Pass start_bit : Nat) (getter : α → Nat) :
    List α → List Nat → List α → Option (List Nat × List α)
  | [], out_index, out => some (out_index, out)
  | x :: xs, out_index, out =>
      match out_index[bucketOf Pass start_bit (getter x)]? with
      | none => none
      | some i =>
          if i < out.length then
            writeLoop Pass start_bit getter xs
              (out_index.set (bucketOf Pass start_bit (getter x)) (i + 1))
              (out.set i x)
          else none

/-- Translated from the private member `radix_sort::sort` (lines 83-105):
one bucketize pass with `start_bit = pass * Pass`, tallying
`n_buckets = 1 << Pass` counts, forming their exclusive prefix sums and
scattering the source into the destination buffer. Returns the updated
destination buffer. -/
def radix_sort_pass (Pass : Nat) (getter : α → Nat) (src out : List α)
    (pass : Nat) : Option (List α) :=
  match writeLoop Pass (pass * Pass) getter src
      (exclusiveScan
        (countLoop Pass (pass * Pass) getter src (List.replicate (1 <<< Pass) 0)) 0)
      out with
  | none => none
  | some (_, out2) => some out2

/-- Translated from the pass loop of `radix_sort::operator()` (lines
130-136): `if (!(pass & 1)) sort(first, last, aux.begin(), getter, pass);
else sort(aux.begin(), aux.end(), first, getter, pass)`. The first `Nat` is
the number of passes still to run, the second the current pass index; the
state is the pair (caller range contents, auxiliary buffer contents). -/
def passLoop (Pass : Nat) (getter : α → Nat) :
    Nat → Nat → List α × List α → Option (List α × List α)
  | 0, _, st => some st
  | k + 1, pass, (rng, aux) =>
      if pass % 2 = 0 then
        match radix_sort_pass Pass getter rng aux pass with
        | none => none
        | some aux2 => passLoop Pass getter k (pass + 1) (rng, aux2)
      else
        match radix_sort_pass Pass getter aux rng pass with
        | none => none
        | some rng2 => passLoop Pass getter k (pass + 1) (rng2, aux)

/-- Translated from the guard `if(first < last)` of `radix_sort::operator()`
(line 125): the branch that allocates the auxiliary vector is entered
exactly when the range is non-empty. -/
def radix_enters_alloc (l : List α) : Bool := decide (0 < l.length)

/-- Translated from `radix_sort::operator()` (lines 123-148): behind the
guard `if(first < last)`, allocate the auxiliary buffer
`std::vector<...> aux(std::distance(first, last))` (value-initialised,
hence `List.replicate l.length default`), run `n_passes = N / Pass` passes
alternating between the range and the buffer, and — mirroring
`if constexpr (n_passes & 1)` — copy the auxiliary buffer back into the
caller's range when the pass count is odd. -/
def radix_sort (Pass N : Nat) (getter : α → Nat) [Inhabited α]
    (l : List α) : Option (List α) :=
  if radix_enters_alloc l then
    match passLoop Pass getter (N / Pass) 0 (l, List.replicate l.length default) with
    | none => none
    | some (rng, aux) => some (if (N / Pass) % 2 = 1 then aux else rng)
  else some l

/-- Translated from the class template `radix_sort<Pass, N>` (lines 79-81):
a value of this type is an instantiation of the engine, and the field
records `static_assert((N % Pass) == 0)` — no instantiation exists unless
the assertion holds. -/
structure RadixSortEngine (Pass N : Nat) : Type where
  static_assert_ok : N % Pass = 0

/-- Calling an instantiated engine runs `radix_sort::operator()`. -/
def RadixSortEngine.run {Pass N : Nat} [Inhabited α] (_e : RadixSortEngine Pass N)
    (getter : α → Nat) (l : List α) : Option (List α) :=
  radix_sort Pass N getter l

/-! ## Specification-side descriptions

The canonical stable sort by a `Nat` key, written as the concatenation of
the key classes in ascending key order. This is the specification the
engines are compared against; it is not a translation of the source. -/

/-- Concatenation of the lists `f k` over the given key list. -/
def blocks (f : Nat → List α) : List Nat → List α
  | [] => []
  | k :: ks => f k ++ blocks f ks

/-- The stable sort of `l` by `key`, for keys below `B`: the elements with
key `0` in their original order, then those with key `1`, and so on. -/
def stableSortByKey (B : Nat) (key : α → Nat) (l : List α) : List α :=
  blocks (fun k => l.filter (fun x => key x == k)) (List.range B)

/-- The functional description of one bucketize pass: group the elements by
their windowed key, in ascending window value, preserving source order
inside each group. -/
def bucketPass (Pass start_bit : Nat) (getter : α → Nat) (l : List α) : List α :=
  stableSortByKey (1 <<< Pass) (fun x => bucketOf Pass start_bit (getter x)) l

/-- The functional description of the first `p` passes of the engine:
iterate `bucketPass` with start bits `0, Pass, 2*Pass, ...`. -/
def passIter (Pass : Nat) (getter : α → Nat) : Nat → List α → List α
  | 0, l => l
  | p + 1, l => bucketPass Pass (p * Pass) getter (passIter Pass getter p l)

/-- Number of elements of `src` falling into bucket `b` of the given pass
window: the value `bucket_count[b]` holds after the tally loop. -/
def bucketCountP (Pass start_bit : Nat) (getter : α → Nat) (src : List α) (b : Nat) : Nat :=
  src.countP fun x => bucketOf Pass start_bit (getter x) == b

/-- Starting write offset of bucket `b`: the exclusive prefix sum of the
bucket counts, i.e. the value `out_index[b]` holds before the scatter
loop. -/
def bucketStart (Pass start_bit : Nat) (getter : α → Nat) (src : List α) (b : Nat) : Nat :=
  ((List.range b).map (bucketCountP Pass start_bit getter src)).sum

/-! ## Helper lemmas: lists -/

theorem getD_set_self (l : List Nat) (n v : Nat) (h : n < l.length) :
    (l.set n v).getD n 0 = v := by
  induction l generalizing n with
  | nil => simp at h
  | cons a t ih =>
    cases n with
    | zero => simp
    | succ m => simpa using ih m (by simpa using h)

theorem getD_set_ne (l : List Nat) (n m v : Nat) (h : n ≠ m) :
    (l.set n v).getD m 0 = l.getD m 0 := by
  induction l generalizing n m with
  | nil => simp
  | cons a t ih =>
    cases n with
    | zero => cases m with
      | zero => exact absurd rfl h
      | succ m' => simp
    | succ n' => cases m with
      | zero => simp
      | succ m' => simpa using ih n' m' (by omega)

theorem sum_set_getD_add_one (l : List Nat) (n : Nat) (h : n < l.length) :
    (l.set n (l.getD n 0 + 1)).sum = l.sum + 1 := by
  induction l generalizing n with
  | nil => simp at h
  | cons a t ih =>
    cases n with
    | zero => simp; omega
    | succ m =>
      have := ih m (by simpa using h)
      simp only [List.set, List.getD_cons_succ, List.sum_cons]
      omega

theorem getQ_set_self (l : List α) (n : Nat) (v : α) (h : n < l.length) :
    (l.set n v)[n]? = some v := by
  induction l generalizing n with
  | nil => simp at h
  | cons a t ih =>
    cases n with
    | zero => simp
    | succ m => simpa using ih m (by simpa using h)

theorem getQ_set_ne (l : List α) (n m : Nat) (v : α) (h : n ≠ m) :
    (l.set n v)[m]? = l[m]? := by
  induction l generalizing n m with
  | nil => simp
  | cons a t ih =>
    cases n with
    | zero => cases m with
      | zero => exact absurd rfl h
      | succ m' => simp
    | succ n' => cases m with
      | zero => simp
      | succ m' => simpa using ih n' m' (by omega)

/-! ## Helper lemmas: bucket arithmetic -/

theorem bucketOf_eq (Pass start_bit key : Nat) :
    bucketOf Pass start_bit key = key / 2 ^ start_bit % 2 ^ Pass := by
  unfold bucketOf bit_mask
  rw [Nat.one_shiftLeft, Nat.and_pow_two_sub_one_eq_mod, Nat.shiftRight_eq_div_pow]

theorem bucketOf_lt (Pass start_bit key : Nat) :
    bucketOf Pass start_bit key < 1 <<< Pass := by
  rw [bucketOf_eq, Nat.one_shiftLeft]
  exact Nat.mod_lt _ (Nat.pos_pow_of_pos _ (by omega))

/-! ## Helper lemmas: the tally loop and the prefix-sum loop -/

theorem countLoop_length (Pass start_bit : Nat) (getter : α → Nat) (src : List α)
    (cnt : List Nat) :
    (countLoop Pass start_bit getter src cnt).length = cnt.length := by
  induction src generalizing cnt with
  | nil => rfl
  | cons x xs ih => rw [countLoop, ih, List.length_set]

theorem countLoop_getD (Pass start_bit : Nat) (getter : α → Nat) (src : List α)
    (cnt : List Nat) (b : Nat) (hb : b < cnt.length) :
    (countLoop Pass start_bit getter src cnt).getD b 0 =
      cnt.getD b 0 + src.countP (fun x => bucketOf Pass start_bit (getter x) == b) := by
  induction src generalizing cnt with
  | nil => simp [countLoop]
  | cons x xs ih =>
    rw [countLoop, ih _ (by rwa [List.length_set]), List.countP_cons]
    by_cases hx : bucketOf Pass start_bit (getter x) = b
    · have hpb : (bucketOf Pass start_bit (getter x) == b) = true := by simpa using hx
      rw [hpb, hx, getD_set_self _ _ _ hb]
      simp only [if_pos rfl, if_true]
      omega
    · rw [getD_set_ne _ _ _ _ hx]
      have : (bucketOf Pass start_bit (getter x) == b) = false := by
        simpa using hx
      rw [this]
      simp

theorem countLoop_sum (Pass start_bit : Nat) (getter : α → Nat) (src : List α)
    (cnt : List Nat) (h : ∀ x, bucketOf Pass start_bit (getter x) < cnt.length) :
    (countLoop Pass start_bit getter src cnt).sum = cnt.sum + src.length := by
  induction src generalizing cnt with
  | nil => simp [countLoop]
  | cons x xs ih =>
    rw [countLoop, ih _ (by intro y; rw [List.length_set]; exact h y),
      sum_set_getD_add_one _ _ (h x), List.length_cons]
    omega

theorem exclusiveScan_length (cs : List Nat) (s : Nat) :
    (exclusiveScan cs s).length = cs.length := by
  induction cs generalizing s with
  | nil => rfl
  | cons c cs ih => rw [exclusiveScan, List.length_cons, List.length_cons, ih]

theorem exclusiveScan_getD (cs : List Nat) (s b : Nat) (hb : b < cs.length) :
    (exclusiveScan cs s).getD b 0 = s + (cs.take b).sum := by
  induction cs generalizing s b with
  | nil => simp at hb
  | cons c cs ih =>
    cases b with
    | zero => simp [exclusiveScan]
    | succ m =>
      rw [exclusiveScan]
      have := ih (s + c) m (by simpa using hb)
      simp only [List.getD_cons_succ, List.take_succ_cons, List.sum_cons]
      rw [this]
      omega

/-! ## Helper lemmas: block concatenation and the canonical stable sort -/

theorem mem_blocks (f : Nat → List α) (ks : List Nat) (x : α) :
    x ∈ blocks f ks ↔ ∃ k ∈ ks, x ∈ f k := by
  induction ks with
  | nil => simp [blocks]
  | cons k ks ih => simp [blocks, ih]

theorem blocks_length (f : Nat → List α) (ks : List Nat) :
    (blocks f ks).length = (ks.map fun k => (f k).length).sum := by
  induction ks with
  | nil => rfl
  | cons k ks ih => simp [blocks, ih]

theorem filter_blocks (f : Nat → List α) (q : α → Bool) (ks : List Nat) :
    (blocks f ks).filter q = blocks (fun k => (f k).filter q) ks := by
  induction ks with
  | nil => rfl
  | cons k ks ih => simp [blocks, List.filter_append, ih]

theorem blocks_congr {f g : Nat → List α} (ks : List Nat)
    (h : ∀ k ∈ ks, f k = g k) : blocks f ks = blocks g ks := by
  induction ks with
  | nil => rfl
  | cons k ks ih =>
    rw [blocks, blocks, h k (by simp), ih fun k hk => h k (by simp [hk])]

theorem blocks_eq_nil {f : Nat → List α} (ks : List Nat)
    (h : ∀ k ∈ ks, f k = []) : blocks f ks = [] := by
  induction ks with
  | nil => rfl
  | cons k ks ih =>
    rw [blocks, h k (by simp), ih fun k hk => h k (by simp [hk]), List.nil_append]

theorem blocks_eq_single {f : Nat → List α} (ks : List Nat) (k₀ : Nat)
    (hmem : k₀ ∈ ks) (hnd : ks.Nodup) (h : ∀ k ∈ ks, k ≠ k₀ → f k = []) :
    blocks f ks = f k₀ := by
  induction ks with
  | nil => simp at hmem
  | cons k ks ih =>
    rcases List.mem_cons.mp hmem with hk | hk
    · subst hk
      rw [blocks, blocks_eq_nil ks, List.append_nil]
      intro k' hk'
      exact h k' (by simp [hk']) fun he => (List.nodup_cons.mp hnd).1 (he ▸ hk')
    · rw [blocks, h k (by simp) fun he => (List.nodup_cons.mp hnd).1 (he ▸ hk),
        List.nil_append]
      exact ih hk (List.nodup_cons.mp hnd).2 fun k' hk' => h k' (by simp [hk'])

theorem pairwise_forall {R : α → α → Prop} :
    ∀ m : List α, (∀ a ∈ m, ∀ b ∈ m, R a b) → m.Pairwise R
  | [], _ => List.Pairwise.nil
  | a :: t, h =>
    List.Pairwise.cons (fun b hb => h a (by simp) b (by simp [hb]))
      (pairwise_forall t fun x hx y hy => h x (by simp [hx]) y (by simp [hy]))

theorem pairwise_blocks {R : α → α → Prop} (f : Nat → List α) (ks : List Nat)
    (hks : ks.Pairwise (· < ·)) (hin : ∀ k ∈ ks, (f k).Pairwise R)
    (hcross : ∀ k k', k < k' → ∀ a ∈ f k, ∀ b ∈ f k', R a b) :
    (blocks f ks).Pairwise R := by
  induction ks with
  | nil => exact List.Pairwise.nil
  | cons k ks ih =>
    rw [blocks]
    refine List.pairwise_append.mpr ⟨hin k (by simp), ?_, ?_⟩
    · exact ih (List.pairwise_cons.mp hks).2 fun k' hk' => hin k' (by simp [hk'])
    · intro a ha b hb
      obtain ⟨k', hk', hbk'⟩ := (mem_blocks f ks b).mp hb
      exact hcross k k' ((List.pairwise_cons.mp hks).1 k' hk') a ha b hbk'

theorem sum_map_add (f g : Nat → Nat) (ks : List Nat) :
    (ks.map fun b => f b + g b).sum = (ks.map f).sum + (ks.map g).sum := by
  induction ks with
  | nil => rfl
  | cons k ks ih => simp [ih]; omega

theorem sum_map_indicator_of_not_mem (c : Nat) (ks : List Nat) (hc : c ∉ ks) :
    (ks.map fun b => if c == b then (1 : Nat) else 0).sum = 0 := by
  induction ks with
  | nil => rfl
  | cons k ks ih =>
    have hck : (c == k) = false := by
      simpa using fun he : c = k => hc (by simp [he])
    rw [List.map_cons, List.sum_cons, hck, ih fun hm => hc (by simp [hm])]
    simp

theorem sum_map_indicator_of_mem (c : Nat) (ks : List Nat) (hnd : ks.Nodup)
    (hc : c ∈ ks) : (ks.map fun b => if c == b then (1 : Nat) else 0).sum = 1 := by
  induction ks with
  | nil => simp at hc
  | cons k ks ih =>
    rcases List.mem_cons.mp hc with hk | hk
    · subst hk
      rw [List.map_cons, List.sum_cons,
        sum_map_indicator_of_not_mem c ks (List.nodup_cons.mp hnd).1]
      simp
    · have hck : (c == k) = false := by
        simpa using fun he : c = k => (List.nodup_cons.mp hnd).1 (he ▸ hk)
      rw [List.map_cons, List.sum_cons, hck, ih (List.nodup_cons.mp hnd).2 hk]
      simp

theorem countP_partition (key : α → Nat) (B : Nat) (src : List α)
    (hkey : ∀ x ∈ src, key x < B) :
    ((List.range B).map fun b => src.countP fun x => key x == b).sum = src.length := by
  induction src with
  | nil => simp
  | cons x xs ih =>
    have hrw : ((List.range B).map fun b => (x :: xs).countP fun y => key y == b) =
        (List.range B).map fun b =>
          (xs.countP fun y => key y == b) + if key x == b then 1 else 0 := by
      exact List.map_congr_left fun b _ => List.countP_cons _ x xs
    rw [hrw, sum_map_add, ih fun y hy => hkey y (by simp [hy]),
      sum_map_indicator_of_mem (key x) (List.range B) (List.nodup_range B)
        (List.mem_range.mpr (hkey x (by simp)))]
    simp

theorem mem_stableSort (B : Nat) (key : α → Nat) (l : List α) (x : α)
    (hx : x ∈ stableSortByKey B key l) : x ∈ l := by
  obtain ⟨k, _, hxk⟩ := (mem_blocks _ _ x).mp hx
  exact (List.mem_filter.mp hxk).1

theorem stableSort_length (B : Nat) (key : α → Nat) (l : List α)
    (hkey : ∀ x ∈ l, key x < B) : (stableSortByKey B key l).length = l.length := by
  rw [stableSortByKey, blocks_length]
  have : ((List.range B).map fun k => ((l.filter fun x => key x == k)).length) =
      (List.range B).map fun k => l.countP fun x => key x == k :=
    List.map_congr_left fun k _ => (l.countP_eq_length_filter _).symm
  rw [this, countP_partition key B l hkey]

theorem filter_stableSort (B : Nat) (key : α → Nat) (l : List α) (q : α → Bool)
    (b₀ : Nat) (hb : b₀ < B) (hq : ∀ x ∈ l, q x = true → key x = b₀) :
    (stableSortByKey B key l).filter q = l.filter q := by
  rw [stableSortByKey, filter_blocks]
  rw [blocks_eq_single (List.range B) b₀ (List.mem_range.mpr hb) (List.nodup_range B)]
  · rw [List.filter_filter]
    exact List.filter_congr fun x hx => by
      cases hqx : q x with
      | true => simp [hq x hx hqx]
      | false => simp
  · intro k _ hk
    rw [List.filter_eq_nil_iff]
    intro a ha
    have hak := List.mem_filter.mp ha
    intro hqa
    exact hk ((by simpa using hak.2 : key a = k) ▸ hq a hak.1 hqa)

theorem filter_stableSort_of_none (B : Nat) (key : α → Nat) (l : List α)
    (q : α → Bool) (hq : ∀ x ∈ l, q x = false) :
    (stableSortByKey B key l).filter q = l.filter q := by
  rw [List.filter_eq_nil_iff.mpr fun a ha => by
      simp [hq a (mem_stableSort B key l a ha)],
    List.filter_eq_nil_iff.mpr fun a ha => by simp [hq a ha]]

theorem stableSort_filter_key (B : Nat) (key : α → Nat) (l : List α)
    (hkey : ∀ x ∈ l, key x < B) (k : Nat) :
    (stableSortByKey B key l).filter (fun x => key x == k) =
      l.filter (fun x => key x == k) := by
  by_cases hk : k < B
  · exact filter_stableSort B key l _ k hk fun x _ hx => by simpa using hx
  · exact filter_stableSort_of_none B key l _ fun x hx => by
      simpa using fun he : key x = k => hk (he ▸ hkey x hx)

theorem stableSort_pairwise (B : Nat) (key : α → Nat) (l : List α)
    (R R' : α → α → Prop) (hl : l.Pairwise R')
    (heq : ∀ a b, key a = key b → R' a b → R a b)
    (hlt : ∀ a b, key a < key b → R a b) :
    (stableSortByKey B key l).Pairwise R := by
  refine pairwise_blocks _ _ (List.pairwise_lt_range B) ?_ ?_
  · intro k _
    refine ((hl.filter _).imp_of_mem ?_)
    intro a b ha hb hab
    have hka : key a = k := by simpa using (List.mem_filter.mp ha).2
    have hkb : key b = k := by simpa using (List.mem_filter.mp hb).2
    exact heq a b (hka.trans hkb.symm) hab
  · intro k k' hkk' a ha b hb
    have hka : key a = k := by simpa using (List.mem_filter.mp ha).2
    have hkb : key b = k' := by simpa using (List.mem_filter.mp hb).2
    exact hlt a b (by omega)

theorem stableSort_sorted (B : Nat) (key : α → Nat) (l : List α) :
    (stableSortByKey B key l).Pairwise fun a b => key a ≤ key b := by
  refine stableSort_pairwise B key l _ (fun _ _ => True) ?_ ?_ ?_
  · exact pairwise_forall l fun _ _ _ _ => trivial
  · intro a b he _
    omega
  · intro a b hlt
    omega

theorem stable_sort_unique (key : α → Nat) :
    ∀ l₁ l₂ : List α, l₁.Pairwise (fun a b => key a ≤ key b) →
      l₂.Pairwise (fun a b => key a ≤ key b) →
      (∀ k, l₁.filter (fun x => key x == k) = l₂.filter (fun x => key x == k)) →
      l₁ = l₂
  | [], [], _, _, _ => rfl
  | [], b :: t₂, _, _, h => by
    have := h (key b)
    simp at this
  | a :: t₁, [], _, _, h => by
    have := h (key a)
    simp at this
  | a :: t₁, b :: t₂, h₁, h₂, h => by
    have hfa : (a :: t₁).filter (fun x => key x == key a) =
        a :: t₁.filter (fun x => key x == key a) := by simp
    have hab : key a = key b := by
      have haIn : a ∈ b :: t₂ := by
        have : a ∈ (b :: t₂).filter (fun x => key x == key a) := by
          rw [← h (key a), hfa]
          simp
        exact (List.mem_filter.mp this).1
      have hba : key b ≤ key a := by
        rcases List.mem_cons.mp haIn with he | hm
        · rw [he]
        · exact (List.pairwise_cons.mp h₂).1 a hm
      have hbIn : b ∈ a :: t₁ := by
        have : b ∈ (a :: t₁).filter (fun x => key x == key b) := by
          rw [h (key b)]
          simp
        exact (List.mem_filter.mp this).1
      have hab' : key a ≤ key b := by
        rcases List.mem_cons.mp hbIn with he | hm
        · rw [he]
        · exact (List.pairwise_cons.mp h₁).1 b hm
      omega
    have hfb : (b :: t₂).filter (fun x => key x == key a) =
        b :: t₂.filter (fun x => key x == key a) := by simp [← hab]
    have hhead : a = b ∧ t₁.filter (fun x => key x == key a) =
        t₂.filter (fun x => key x == key a) := by
      have := h (key a)
      rw [hfa, hfb] at this
      exact ⟨(List.cons.injEq _ _ _ _ ▸ this).1, (List.cons.injEq _ _ _ _ ▸ this).2⟩
    have htails : ∀ k, t₁.filter (fun x => key x == k) = t₂.filter (fun x => key x == k) := by
      intro k
      by_cases hk : k = key a
      · rw [hk]
        exact hhead.2
      · have h₁k : (a :: t₁).filter (fun x => key x == k) =
            t₁.filter (fun x => key x == k) := by
          simp [show (key a == k) = false by simpa using fun he : key a = k => hk he.symm]
        have h₂k : (b :: t₂).filter (fun x => key x == k) =
            t₂.filter (fun x => key x == k) := by
          simp [show (key b == k) = false by
            simpa using fun he : key b = k => hk (he.symm.trans hab.symm)]
        rw [← h₁k, ← h₂k]
        exact h k
    rw [hhead.1,
      stable_sort_unique key t₁ t₂ (List.pairwise_cons.mp h₁).2
        (List.pairwise_cons.mp h₂).2 htails]

theorem perm_of_filter_key [DecidableEq α] (key : α → Nat) (l₁ l₂ : List α)
    (h : ∀ k, l₁.filter (fun x => key x == k) = l₂.filter (fun x => key x == k)) :
    List.Perm l₁ l₂ := by
  rw [List.perm_iff_count]
  intro a
  have h₁ : (l₁.filter (fun x => key x == key a)).count a = l₁.count a :=
    List.count_filter (by simp)
  have h₂ : (l₂.filter (fun x => key x == key a)).count a = l₂.count a :=
    List.count_filter (by simp)
  rw [← h₁, h (key a), h₂]

/-! ## Helper lemmas: bucket counts and offsets of one pass -/

theorem bucketStart_zero (Pass start_bit : Nat) (getter : α → Nat) (src : List α) :
    bucketStart Pass start_bit getter src 0 = 0 := rfl

theorem bucketStart_succ (Pass start_bit : Nat) (getter : α → Nat) (src : List α)
    (b : Nat) :
    bucketStart Pass start_bit getter src (b + 1) =
      bucketStart Pass start_bit getter src b +
        bucketCountP Pass start_bit getter src b := by
  rw [bucketStart, List.range_succ, List.map_append, List.sum_append]
  rfl

theorem bucketStart_le (Pass start_bit : Nat) (getter : α → Nat) (src : List α)
    {b b' : Nat} (h : b ≤ b') :
    bucketStart Pass start_bit getter src b ≤ bucketStart Pass start_bit getter src b' := by
  have key : ∀ d base : Nat, bucketStart Pass start_bit getter src base ≤
      bucketStart Pass start_bit getter src (base + d) := by
    intro d
    induction d with
    | zero => intro base; exact Nat.le_refl _
    | succ d ih =>
      intro base
      have : base + (d + 1) = (base + d) + 1 := by omega
      rw [this, bucketStart_succ]
      exact (ih base).trans (Nat.le_add_right _ _)
  have := key (b' - b) b
  rwa [show b + (b' - b) = b' by omega] at this

theorem bucketStart_full (Pass start_bit : Nat) (getter : α → Nat) (src : List α) :
    bucketStart Pass start_bit getter src (1 <<< Pass) = src.length := by
  rw [bucketStart]
  exact countP_partition _ _ src fun x _ => bucketOf_lt Pass start_bit (getter x)

theorem countLoop_replicate_length (Pass start_bit : Nat) (getter : α → Nat)
    (src : List α) :
    (countLoop Pass start_bit getter src (List.replicate (1 <<< Pass) 0)).length =
      1 <<< Pass := by
  rw [countLoop_length, List.length_replicate]

theorem countLoop_replicate_getD (Pass start_bit : Nat) (getter : α → Nat)
    (src : List α) (b : Nat) (hb : b < 1 <<< Pass) :
    (countLoop Pass start_bit getter src (List.replicate (1 <<< Pass) 0)).getD b 0 =
      bucketCountP Pass start_bit getter src b := by
  rw [countLoop_getD _ _ _ _ _ _ (by rwa [List.length_replicate]),
    List.getD_eq_getElem?_getD, List.getElem?_replicate]
  simp [hb, bucketCountP]

theorem countLoop_take_sum (Pass start_bit : Nat) (getter : α → Nat) (src : List α) :
    ∀ b, b ≤ 1 <<< Pass →
      ((countLoop Pass start_bit getter src (List.replicate (1 <<< Pass) 0)).take b).sum =
        bucketStart Pass start_bit getter src b := by
  intro b
  induction b with
  | zero => intro _; simp [bucketStart_zero]
  | succ m ih =>
    intro hm
    have hmlt : m < (countLoop Pass start_bit getter src
        (List.replicate (1 <<< Pass) 0)).length := by
      rw [countLoop_replicate_length]; omega
    rw [List.take_succ, List.sum_append, ih (by omega), bucketStart_succ,
      List.getElem?_eq_getElem hmlt]
    have : (countLoop Pass start_bit getter src (List.replicate (1 <<< Pass) 0))[m] =
        bucketCountP Pass start_bit getter src m := by
      have := countLoop_replicate_getD Pass start_bit getter src m (by omega)
      rwa [List.getD_eq_getElem?_getD, List.getElem?_eq_getElem hmlt, Option.getD_some] at this
    rw [this]
    simp

theorem out_index_getD (Pass start_bit : Nat) (getter : α → Nat) (src : List α)
    (b : Nat) (hb : b < 1 <<< Pass) :
    (exclusiveScan
        (countLoop Pass start_bit getter src (List.replicate (1 <<< Pass) 0)) 0).getD b 0 =
      bucketStart Pass start_bit getter src b := by
  rw [exclusiveScan_getD _ _ _ (by rwa [countLoop_replicate_length]),
    countLoop_take_sum Pass start_bit getter src b (by omega)]
  omega

theorem getD_of_lt (l : List Nat) (n : Nat) (h : n < l.length) :
    l[n]? = some (l.getD n 0) := by
  rw [List.getElem?_eq_getElem h, List.getD_eq_getElem?_getD, List.getElem?_eq_getElem h]
  rfl

/-! ## The scatter loop writes every bucket segment of the destination -/

theorem writeLoop_invariant (Pass start_bit : Nat) (getter : α → Nat) (src : List α) :
    ∀ (todo done : List α) (idx : List Nat) (out : List α),
      src = done ++ todo →
      idx.length = 1 <<< Pass →
      (∀ b, b < 1 <<< Pass → idx.getD b 0 =
        bucketStart Pass start_bit getter src b +
          done.countP (fun y => bucketOf Pass start_bit (getter y) == b)) →
      out.length = src.length →
      (∀ b, b < 1 <<< Pass →
        ∀ j, j < done.countP (fun y => bucketOf Pass start_bit (getter y) == b) →
          out[bucketStart Pass start_bit getter src b + j]? =
            (done.filter (fun y => bucketOf Pass start_bit (getter y) == b))[j]?) →
      ∃ idx2 out2, writeLoop Pass start_bit getter todo idx out = some (idx2, out2) ∧
        out2.length = src.length ∧
        (∀ b, b < 1 <<< Pass →
          ∀ j, j < bucketCountP Pass start_bit getter src b →
            out2[bucketStart Pass start_bit getter src b + j]? =
              (src.filter (fun y => bucketOf Pass start_bit (getter y) == b))[j]?) := by
  intro todo
  induction todo with
  | nil =>
    intro done idx out hsplit _ _ houtlen hout
    have hdone : src = done := by simpa using hsplit
    subst hdone
    refine ⟨idx, out, rfl, houtlen, ?_⟩
    intro b hb j hj
    simp only [bucketCountP] at hj
    exact hout b hb j hj
  | cons x xs ih =>
    intro done idx out hsplit hidxlen hidx houtlen hout
    have hb0 : bucketOf Pass start_bit (getter x) < 1 <<< Pass := bucketOf_lt _ _ _
    have hb0idx : bucketOf Pass start_bit (getter x) < idx.length := by omega
    have hsome : idx[bucketOf Pass start_bit (getter x)]? =
        some (idx.getD (bucketOf Pass start_bit (getter x)) 0) :=
      getD_of_lt idx _ hb0idx
    have hcA := hidx _ hb0
    have hxpb : (bucketOf Pass start_bit (getter x) ==
        bucketOf Pass start_bit (getter x)) = true := by simp
    have hcnt_split : bucketCountP Pass start_bit getter src
        (bucketOf Pass start_bit (getter x)) =
        done.countP (fun y => bucketOf Pass start_bit (getter y) ==
          bucketOf Pass start_bit (getter x)) +
        ((x :: xs).countP (fun y => bucketOf Pass start_bit (getter y) ==
          bucketOf Pass start_bit (getter x))) := by
      rw [bucketCountP, hsplit, List.countP_append]
    have hspace : done.countP (fun y => bucketOf Pass start_bit (getter y) ==
        bucketOf Pass start_bit (getter x)) <
        bucketCountP Pass start_bit getter src (bucketOf Pass start_bit (getter x)) := by
      rw [hcnt_split, List.countP_cons]
      simp only [hxpb, if_pos rfl, if_true]
      omega
    have hmono1 : bucketStart Pass start_bit getter src
        (bucketOf Pass start_bit (getter x) + 1) ≤ src.length := by
      rw [← bucketStart_full Pass start_bit getter src]
      exact bucketStart_le Pass start_bit getter src (by omega)
    have hi_lt_src : idx.getD (bucketOf Pass start_bit (getter x)) 0 < src.length := by
      rw [hcA]
      have := bucketStart_succ Pass start_bit getter src (bucketOf Pass start_bit (getter x))
      omega
    have hi_lt_out : idx.getD (bucketOf Pass start_bit (getter x)) 0 < out.length := by
      omega
    have hstep : writeLoop Pass start_bit getter (x :: xs) idx out =
        writeLoop Pass start_bit getter xs
          (idx.set (bucketOf Pass start_bit (getter x))
            (idx.getD (bucketOf Pass start_bit (getter x)) 0 + 1))
          (out.set (idx.getD (bucketOf Pass start_bit (getter x)) 0) x) := by
      simp only [writeLoop, hsome]
      rw [if_pos hi_lt_out]
    have hidx' : ∀ b, b < 1 <<< Pass →
        (idx.set (bucketOf Pass start_bit (getter x))
          (idx.getD (bucketOf Pass start_bit (getter x)) 0 + 1)).getD b 0 =
        bucketStart Pass start_bit getter src b +
          (done ++ [x]).countP (fun y => bucketOf Pass start_bit (getter y) == b) := by
      intro b hb
      by_cases hbe : b = bucketOf Pass start_bit (getter x)
      · subst hbe
        rw [getD_set_self _ _ _ hb0idx, List.countP_append, hcA]
        have h1 : [x].countP (fun y => bucketOf Pass start_bit (getter y) ==
            bucketOf Pass start_bit (getter x)) = 1 := by
          simp [List.countP_cons]
        rw [h1]
        omega
      · rw [getD_set_ne _ _ _ _
          (fun he : bucketOf Pass start_bit (getter x) = b => hbe he.symm),
          List.countP_append]
        have hfb2 : (bucketOf Pass start_bit (getter x) == b) = false := by
          simpa using fun he : bucketOf Pass start_bit (getter x) = b => hbe he.symm
        have h0 : [x].countP (fun y => bucketOf Pass start_bit (getter y) == b) = 0 := by
          simp only [List.countP_cons, List.countP_nil, hfb2]
          simp
        rw [h0, hidx b hb]
        omega
    have hout' : ∀ b, b < 1 <<< Pass →
        ∀ j, j < (done ++ [x]).countP (fun y => bucketOf Pass start_bit (getter y) == b) →
        (out.set (idx.getD (bucketOf Pass start_bit (getter x)) 0) x)[
            bucketStart Pass start_bit getter src b + j]? =
          ((done ++ [x]).filter (fun y => bucketOf Pass start_bit (getter y) == b))[j]? := by
      intro b hb j hj
      by_cases hbe : b = bucketOf Pass start_bit (getter x)
      · subst hbe
        rw [List.countP_append] at hj
        have h1 : [x].countP (fun y => bucketOf Pass start_bit (getter y) ==
            bucketOf Pass start_bit (getter x)) = 1 := by
          simp [List.countP_cons]
        rw [h1] at hj
        have hfilx : [x].filter (fun y => bucketOf Pass start_bit (getter y) ==
            bucketOf Pass start_bit (getter x)) = [x] := by
          simp [List.filter]
        have hflen : (done.filter (fun y => bucketOf Pass start_bit (getter y) ==
            bucketOf Pass start_bit (getter x))).length =
            done.countP (fun y => bucketOf Pass start_bit (getter y) ==
              bucketOf Pass start_bit (getter x)) :=
          (done.countP_eq_length_filter _).symm
        rw [List.filter_append, hfilx]
        rcases Nat.lt_or_ge j (done.countP (fun y => bucketOf Pass start_bit (getter y) ==
            bucketOf Pass start_bit (getter x))) with hjlt | hjge
        · rw [getQ_set_ne _ _ _ _ (by rw [hcA]; omega)]
          rw [List.getElem?_append]
          rw [if_pos (by omega)]
          exact hout _ hb j hjlt
        · have hjeq : j = done.countP (fun y => bucketOf Pass start_bit (getter y) ==
              bucketOf Pass start_bit (getter x)) := by omega
          subst hjeq
          rw [show bucketStart Pass start_bit getter src (bucketOf Pass start_bit (getter x)) +
              done.countP (fun y => bucketOf Pass start_bit (getter y) ==
                bucketOf Pass start_bit (getter x)) =
              idx.getD (bucketOf Pass start_bit (getter x)) 0 from hcA.symm]
          rw [getQ_set_self _ _ _ hi_lt_out, List.getElem?_append]
          rw [if_neg (by omega)]
          rw [show done.countP (fun y => bucketOf Pass start_bit (getter y) ==
              bucketOf Pass start_bit (getter x)) -
              (done.filter (fun y => bucketOf Pass start_bit (getter y) ==
                bucketOf Pass start_bit (getter x))).length = 0 by omega]
          rfl
      · have h0c : (done ++ [x]).countP (fun y => bucketOf Pass start_bit (getter y) == b) =
            done.countP (fun y => bucketOf Pass start_bit (getter y) == b) := by
          rw [List.countP_append]
          have hfb2 : (bucketOf Pass start_bit (getter x) == b) = false := by
            simpa using fun he : bucketOf Pass start_bit (getter x) = b => hbe he.symm
          have h0 : [x].countP (fun y => bucketOf Pass start_bit (getter y) == b) = 0 := by
            simp only [List.countP_cons, List.countP_nil, hfb2]
            simp
          rw [h0]
          omega
        rw [h0c] at hj
        have h0f : (done ++ [x]).filter (fun y => bucketOf Pass start_bit (getter y) == b) =
            done.filter (fun y => bucketOf Pass start_bit (getter y) == b) := by
          rw [List.filter_append]
          have hfb : (bucketOf Pass start_bit (getter x) == b) = false := by
            simpa using fun he : bucketOf Pass start_bit (getter x) = b => hbe he.symm
          have : [x].filter (fun y => bucketOf Pass start_bit (getter y) == b) = [] := by
            simp [List.filter, hfb]
          rw [this, List.append_nil]
        rw [h0f]
        have hcnt_le : done.countP (fun y => bucketOf Pass start_bit (getter y) == b) ≤
            bucketCountP Pass start_bit getter src b := by
          rw [bucketCountP, hsplit, List.countP_append]
          omega
        have hSbsucc := bucketStart_succ Pass start_bit getter src b
        have hSb0succ := bucketStart_succ Pass start_bit getter src
          (bucketOf Pass start_bit (getter x))
        have hne : idx.getD (bucketOf Pass start_bit (getter x)) 0 ≠
            bucketStart Pass start_bit getter src b + j := by
          rcases Nat.lt_or_ge b (bucketOf Pass start_bit (getter x)) with hlt | hge
          · have hm : bucketStart Pass start_bit getter src (b + 1) ≤
                bucketStart Pass start_bit getter src (bucketOf Pass start_bit (getter x)) :=
              bucketStart_le Pass start_bit getter src (by omega)
            rw [hcA]
            omega
          · have hblt : bucketOf Pass start_bit (getter x) < b := by omega
            have hm : bucketStart Pass start_bit getter src
                (bucketOf Pass start_bit (getter x) + 1) ≤
                bucketStart Pass start_bit getter src b :=
              bucketStart_le Pass start_bit getter src (by omega)
            rw [hcA]
            omega
        rw [getQ_set_ne _ _ _ _ hne]
        exact hout b hb j hj
    obtain ⟨idx2, out2, hrun, hlen2, hpos⟩ :=
      ih (done ++ [x])
        (idx.set (bucketOf Pass start_bit (getter x))
          (idx.getD (bucketOf Pass start_bit (getter x)) 0 + 1))
        (out.set (idx.getD (bucketOf Pass start_bit (getter x)) 0) x)
        (by rw [hsplit]; simp)
        (by rw [List.length_set]; exact hidxlen)
        hidx' (by rw [List.length_set]; exact houtlen) hout'
    exact ⟨idx2, out2, hstep.trans hrun, hlen2, hpos⟩

theorem blocks_append (f : Nat → List α) (ks₁ ks₂ : List Nat) :
    blocks f (ks₁ ++ ks₂) = blocks f ks₁ ++ blocks f ks₂ := by
  induction ks₁ with
  | nil => rfl
  | cons k ks ih => simp [blocks, ih]

theorem blocks_take (Pass start_bit : Nat) (getter : α → Nat) (src : List α)
    (l : List α) (hlen : l.length = src.length) :
    ∀ n, n ≤ 1 <<< Pass →
      blocks (fun b => (l.drop (bucketStart Pass start_bit getter src b)).take
        (bucketCountP Pass start_bit getter src b)) (List.range n) =
      l.take (bucketStart Pass start_bit getter src n) := by
  intro n
  induction n with
  | zero =>
    intro _
    simp [blocks, bucketStart_zero]
  | succ m ih =>
    intro hm
    rw [List.range_succ, blocks_append, ih (by omega), bucketStart_succ]
    show l.take (bucketStart Pass start_bit getter src m) ++
        ((l.drop (bucketStart Pass start_bit getter src m)).take
          (bucketCountP Pass start_bit getter src m) ++ []) = _
    rw [List.append_nil, List.take_add]

theorem seg_eq_filter (Pass start_bit : Nat) (getter : α → Nat) (src : List α)
    (out2 : List α) (hlen : out2.length = src.length)
    (hpos : ∀ b, b < 1 <<< Pass →
      ∀ j, j < bucketCountP Pass start_bit getter src b →
        out2[bucketStart Pass start_bit getter src b + j]? =
          (src.filter (fun y => bucketOf Pass start_bit (getter y) == b))[j]?)
    (b : Nat) (hb : b < 1 <<< Pass) :
    (out2.drop (bucketStart Pass start_bit getter src b)).take
      (bucketCountP Pass start_bit getter src b) =
      src.filter (fun y => bucketOf Pass start_bit (getter y) == b) := by
  have hfit : bucketStart Pass start_bit getter src b +
      bucketCountP Pass start_bit getter src b ≤ out2.length := by
    rw [hlen, ← bucketStart_full Pass start_bit getter src,
      ← bucketStart_succ Pass start_bit getter src b]
    exact bucketStart_le Pass start_bit getter src (by omega)
  have hflen : (src.filter (fun y => bucketOf Pass start_bit (getter y) == b)).length =
      bucketCountP Pass start_bit getter src b :=
    (src.countP_eq_length_filter _).symm
  apply List.ext_getElem?
  intro j
  rcases Nat.lt_or_ge j (bucketCountP Pass start_bit getter src b) with hj | hj
  · rw [List.getElem?_take, if_pos hj, List.getElem?_drop]
    exact hpos b hb j hj
  · rw [List.getElem?_eq_none, List.getElem?_eq_none]
    · omega
    · rw [List.length_take, List.length_drop]
      omega

/-- The private `radix_sort::sort` pass, run on a destination buffer of the
source's length, succeeds and produces exactly the functional bucket pass. -/
theorem radix_sort_pass_eq (Pass : Nat) (getter : α → Nat) (src out : List α)
    (pass : Nat) (hlen : out.length = src.length) :
    radix_sort_pass Pass getter src out pass =
      some (bucketPass Pass (pass * Pass) getter src) := by
  obtain ⟨idx2, out2, hrun, hlen2, hpos⟩ :=
    writeLoop_invariant Pass (pass * Pass) getter src src []
      (exclusiveScan
        (countLoop Pass (pass * Pass) getter src (List.replicate (1 <<< Pass) 0)) 0)
      out
      (List.nil_append src).symm
      (by rw [exclusiveScan_length, countLoop_replicate_length])
      (fun b hb => by
        rw [out_index_getD Pass (pass * Pass) getter src b hb]
        simp)
      hlen
      (fun b hb j hj => by simp at hj)
  rw [radix_sort_pass, hrun]
  have htile := blocks_take Pass (pass * Pass) getter src out2 hlen2 (1 <<< Pass)
    (Nat.le_refl _)
  rw [bucketStart_full, ← hlen2, List.take_length] at htile
  have hseg : blocks (fun b =>
        (out2.drop (bucketStart Pass (pass * Pass) getter src b)).take
          (bucketCountP Pass (pass * Pass) getter src b)) (List.range (1 <<< Pass)) =
      blocks (fun b => src.filter (fun y => bucketOf Pass (pass * Pass) (getter y) == b))
        (List.range (1 <<< Pass)) :=
    blocks_congr (List.range (1 <<< Pass))
      (fun b hbmem => seg_eq_filter Pass (pass * Pass) getter src out2 hlen2 hpos b
        (List.mem_range.mp hbmem))
  have : out2 = bucketPass Pass (pass * Pass) getter src := by
    rw [bucketPass, stableSortByKey, ← hseg, htile]
  rw [this]

theorem bucketPass_length (Pass start_bit : Nat) (getter : α → Nat) (src : List α) :
    (bucketPass Pass start_bit getter src).length = src.length :=
  stableSort_length _ _ _ fun x _ => bucketOf_lt Pass start_bit (getter x)

theorem passIter_length (Pass : Nat) (getter : α → Nat) (l : List α) :
    ∀ p, (passIter Pass getter p l).length = l.length := by
  intro p
  induction p with
  | zero => rfl
  | succ p ih => rw [passIter, bucketPass_length, ih]

theorem passIter_nil (Pass : Nat) (getter : α → Nat) :
    ∀ p, passIter Pass getter p ([] : List α) = [] := by
  intro p
  induction p with
  | zero => rfl
  | succ p ih =>
    rw [passIter, ih, bucketPass, stableSortByKey]
    exact blocks_eq_nil _ fun k _ => rfl

/-! ## The pass loop: ping-pong between the range and the auxiliary buffer -/

theorem passLoop_eq (Pass : Nat) (getter : α → Nat) (l : List α) :
    ∀ (k p : Nat) (rng aux : List α),
      rng.length = l.length → aux.length = l.length →
      (p % 2 = 0 → rng = passIter Pass getter p l) →
      (p % 2 = 1 → aux = passIter Pass getter p l) →
      ∃ rng2 aux2, passLoop Pass getter k p (rng, aux) = some (rng2, aux2) ∧
        rng2.length = l.length ∧ aux2.length = l.length ∧
        ((p + k) % 2 = 0 → rng2 = passIter Pass getter (p + k) l) ∧
        ((p + k) % 2 = 1 → aux2 = passIter Pass getter (p + k) l) := by
  intro k
  induction k with
  | zero =>
    intro p rng aux h1 h2 h3 h4
    exact ⟨rng, aux, rfl, h1, h2, by simpa using h3, by simpa using h4⟩
  | succ m ih =>
    intro p rng aux h1 h2 h3 h4
    by_cases hp : p % 2 = 0
    · have hrng : rng = passIter Pass getter p l := h3 hp
      have hpass : radix_sort_pass Pass getter rng aux p =
          some (bucketPass Pass (p * Pass) getter rng) :=
        radix_sort_pass_eq Pass getter rng aux p (h2.trans h1.symm)
      have hnext : bucketPass Pass (p * Pass) getter rng =
          passIter Pass getter (p + 1) l := by
        rw [hrng, passIter]
      obtain ⟨rng2, aux2, hrun, hl1, hl2, he, ho⟩ :=
        ih (p + 1) rng (bucketPass Pass (p * Pass) getter rng) h1
          (by rw [bucketPass_length]; exact h1)
          (fun hc => by omega)
          (fun _ => hnext)
      refine ⟨rng2, aux2, ?_, hl1, hl2, ?_, ?_⟩
      · simp only [passLoop, if_pos hp, hpass]
        exact hrun
      · intro hc
        rw [show p + (m + 1) = p + 1 + m by omega]
        exact he (by omega)
      · intro hc
        rw [show p + (m + 1) = p + 1 + m by omega]
        exact ho (by omega)
    · have hp1 : p % 2 = 1 := by omega
      have haux : aux = passIter Pass getter p l := h4 hp1
      have hpass : radix_sort_pass Pass getter aux rng p =
          some (bucketPass Pass (p * Pass) getter aux) :=
        radix_sort_pass_eq Pass getter aux rng p (h1.trans h2.symm)
      have hnext : bucketPass Pass (p * Pass) getter aux =
          passIter Pass getter (p + 1) l := by
        rw [haux, passIter]
      obtain ⟨rng2, aux2, hrun, hl1, hl2, he, ho⟩ :=
        ih (p + 1) (bucketPass Pass (p * Pass) getter aux) aux
          (by rw [bucketPass_length]; exact h2)
          h2 (fun _ => hnext) (fun hc => by omega)
      refine ⟨rng2, aux2, ?_, hl1, hl2, ?_, ?_⟩
      · simp only [passLoop, if_neg hp, hpass]
        exact hrun
      · intro hc
        rw [show p + (m + 1) = p + 1 + m by omega]
        exact he (by omega)
      · intro hc
        rw [show p + (m + 1) = p + 1 + m by omega]
        exact ho (by omega)

/-- The public `radix_sort::operator()` computes exactly `N / Pass` iterated
bucket passes, with the copy-back from the auxiliary buffer hiding which
buffer held the final data. -/
theorem radix_sort_eq_passIter (Pass N : Nat) (getter : α → Nat) [Inhabited α]
    (l : List α) :
    radix_sort Pass N getter l = some (passIter Pass getter (N / Pass) l) := by
  by_cases hl : 0 < l.length
  · obtain ⟨rng2, aux2, hrun, _, _, he, ho⟩ :=
      passLoop_eq Pass getter l (N / Pass) 0 l (List.replicate l.length default)
        rfl (List.length_replicate _ _) (fun _ => rfl) (fun hc => by omega)
    rw [radix_sort, if_pos (by simpa [radix_enters_alloc] using hl), hrun]
    show some (if (N / Pass) % 2 = 1 then aux2 else rng2) = _
    rcases Nat.mod_two_eq_zero_or_one (N / Pass) with hpar | hpar
    · have he' : rng2 = passIter Pass getter (N / Pass) l := by
        have := he (by simpa using hpar)
        simpa using this
      rw [if_neg (by omega), he']
    · have ho' : aux2 = passIter Pass getter (N / Pass) l := by
        have := ho (by simpa using hpar)
        simpa using this
      rw [if_pos (by omega), ho']
  · have hnil : l = [] := by
      cases l with
      | nil => rfl
      | cons a t => simp at hl
    subst hnil
    rw [radix_sort, if_neg (by simp [radix_enters_alloc]), passIter_nil]

/-! ## The least-significant-digit induction -/

theorem bucketOf_mod (Pass sb : Nat) (k : Nat) :
    k % 2 ^ (sb + Pass) = k % 2 ^ sb + 2 ^ sb * bucketOf Pass sb k := by
  rw [bucketOf_eq, pow_add, Nat.mod_mul]

theorem bucketOf_of_mod_eq (Pass sb : Nat) {k j : Nat} (h : k % 2 ^ (sb + Pass) = j) :
    bucketOf Pass sb k = j / 2 ^ sb := by
  rw [bucketOf_eq, ← h, pow_add, Nat.mod_mul_right_div_self]

theorem mod_low_of_mod_eq (Pass sb : Nat) {k j : Nat} (h : k % 2 ^ (sb + Pass) = j) :
    k % 2 ^ sb = j % 2 ^ sb := by
  rw [← h, Nat.mod_mod_of_dvd]
  exact pow_dvd_pow 2 (by omega)

theorem bucketPass_stableSort (Pass sb : Nat) (getter : α → Nat) (l : List α) :
    bucketPass Pass sb getter
      (stableSortByKey (2 ^ sb) (fun x => getter x % 2 ^ sb) l) =
    stableSortByKey (2 ^ (sb + Pass)) (fun x => getter x % 2 ^ (sb + Pass)) l := by
  have hpow : (0 : Nat) < 2 ^ sb := Nat.pos_pow_of_pos _ (by omega)
  have hMkey : ∀ x ∈ l, getter x % 2 ^ sb < 2 ^ sb := fun x _ => Nat.mod_lt _ hpow
  have hKbound : ∀ x : α, getter x % 2 ^ (sb + Pass) < 2 ^ (sb + Pass) :=
    fun x => Nat.mod_lt _ (Nat.pos_pow_of_pos _ (by omega))
  have h2B : (2 : Nat) ^ (sb + Pass) = 2 ^ sb * 2 ^ Pass := pow_add 2 sb Pass
  apply stable_sort_unique (fun x => getter x % 2 ^ (sb + Pass))
  · rw [bucketPass]
    apply stableSort_pairwise _ _ _ _
      (fun a b => getter a % 2 ^ sb ≤ getter b % 2 ^ sb)
      (stableSort_sorted _ _ _)
    · intro a b heq hle
      have ha := bucketOf_mod Pass sb (getter a)
      have hb := bucketOf_mod Pass sb (getter b)
      rw [← heq] at hb
      omega
    · intro a b hlt
      have ha := bucketOf_mod Pass sb (getter a)
      have hb := bucketOf_mod Pass sb (getter b)
      have h1 : getter a % 2 ^ sb < 2 ^ sb := Nat.mod_lt _ hpow
      have h2 : 2 ^ sb * (bucketOf Pass sb (getter a) + 1) ≤
          2 ^ sb * bucketOf Pass sb (getter b) :=
        Nat.mul_le_mul_left _ (by omega)
      have h3 : 2 ^ sb * (bucketOf Pass sb (getter a) + 1) =
          2 ^ sb * bucketOf Pass sb (getter a) + 2 ^ sb := Nat.mul_succ _ _
      omega
  · exact stableSort_sorted _ _ _
  · intro k
    have hR : (stableSortByKey (2 ^ (sb + Pass))
          (fun x => getter x % 2 ^ (sb + Pass)) l).filter
          (fun x => getter x % 2 ^ (sb + Pass) == k) =
        l.filter (fun x => getter x % 2 ^ (sb + Pass) == k) :=
      stableSort_filter_key _ _ _ (fun x _ => hKbound x) k
    rw [hR]
    by_cases hk : k < 2 ^ (sb + Pass)
    · have hstep1 : (bucketPass Pass sb getter
            (stableSortByKey (2 ^ sb) (fun x => getter x % 2 ^ sb) l)).filter
            (fun x => getter x % 2 ^ (sb + Pass) == k) =
          (stableSortByKey (2 ^ sb) (fun x => getter x % 2 ^ sb) l).filter
            (fun x => getter x % 2 ^ (sb + Pass) == k) := by
        rw [bucketPass]
        apply filter_stableSort _ _ _ _ (k / 2 ^ sb)
        · rw [Nat.one_shiftLeft, Nat.div_lt_iff_lt_mul hpow, Nat.mul_comm, ← h2B]
          exact hk
        · intro x _ hx
          exact bucketOf_of_mod_eq Pass sb (by simpa using hx)
      have hstep2 : (stableSortByKey (2 ^ sb) (fun x => getter x % 2 ^ sb) l).filter
            (fun x => getter x % 2 ^ (sb + Pass) == k) =
          l.filter (fun x => getter x % 2 ^ (sb + Pass) == k) := by
        apply filter_stableSort _ _ _ _ (k % 2 ^ sb)
        · exact Nat.mod_lt _ hpow
        · intro x _ hx
          exact mod_low_of_mod_eq Pass sb (by simpa using hx)
      rw [hstep1, hstep2]
    · have hLnil : (bucketPass Pass sb getter
            (stableSortByKey (2 ^ sb) (fun x => getter x % 2 ^ sb) l)).filter
            (fun x => getter x % 2 ^ (sb + Pass) == k) = [] := by
        rw [List.filter_eq_nil_iff]
        intro a _
        simp only [beq_iff_eq]
        intro he
        exact hk (he ▸ hKbound a)
      have hRnil : l.filter (fun x => getter x % 2 ^ (sb + Pass) == k) = [] := by
        rw [List.filter_eq_nil_iff]
        intro a _
        simp only [beq_iff_eq]
        intro he
        exact hk (he ▸ hKbound a)
      rw [hLnil, hRnil]

theorem stableSortByKey_one (key : α → Nat) (l : List α) (h : ∀ x ∈ l, key x = 0) :
    stableSortByKey 1 key l = l := by
  rw [stableSortByKey, show List.range 1 = [0] from rfl, blocks, blocks, List.append_nil]
  rw [List.filter_eq_self]
  intro a ha
  simp [h a ha]

theorem passIter_eq_stableSort (Pass : Nat) (getter : α → Nat) (l : List α) :
    ∀ p, passIter Pass getter p l =
      stableSortByKey (2 ^ (p * Pass)) (fun x => getter x % 2 ^ (p * Pass)) l := by
  intro p
  induction p with
  | zero =>
    show l = _
    rw [Nat.zero_mul, pow_zero]
    exact (stableSortByKey_one _ l fun x _ => Nat.mod_one (getter x)).symm
  | succ p ih =>
    rw [passIter, ih, show (p + 1) * Pass = p * Pass + Pass from Nat.succ_mul p Pass]
    exact bucketPass_stableSort Pass (p * Pass) getter l

/-- The radix sort engine computes the canonical stable sort by the low `N`
bits of the getter's value. -/
theorem radix_sort_eq_stableSort (Pass N : Nat) (getter : α → Nat) [Inhabited α]
    (l : List α) (h : N % Pass = 0) :
    radix_sort Pass N getter l =
      some (stableSortByKey (2 ^ N) (fun x => getter x % 2 ^ N) l) := by
  rw [radix_sort_eq_passIter, passIter_eq_stableSort,
    show N / Pass * Pass = N from Nat.div_mul_cancel (Nat.dvd_of_mod_eq_zero h)]

/-! ## Insertion sort proofs -/

theorem swo_asymm {compare : α → α → Bool} (h : IsSWO compare) {a b : α}
    (hab : compare a b = true) : compare b a = false := by
  cases hv : compare b a with
  | false => rfl
  | true =>
    have hc := h.2.1 a b a hab hv
    rw [h.1 a] at hc
    exact Bool.noConfusion hc

theorem insertRev_perm (compare : α → α → Bool) (v : α) :
    ∀ acc : List α, List.Perm (insertRev compare v acc) (v :: acc)
  | [] => List.Perm.refl _
  | hd :: t => by
    rw [insertRev]
    by_cases hc : compare v hd = true
    · rw [if_pos hc]
      exact ((insertRev_perm compare v t).cons hd).trans (List.Perm.swap v hd t)
    · rw [if_neg hc]

theorem insertRev_pairwise {compare : α → α → Bool} (h : IsSWO compare) (v : α) :
    ∀ acc : List α, acc.Pairwise (fun a b => compare a b = false) →
      (insertRev compare v acc).Pairwise (fun a b => compare a b = false)
  | [], _ => by simp [insertRev]
  | hd :: t, hacc => by
    rw [insertRev]
    rcases List.pairwise_cons.mp hacc with ⟨hhd, ht⟩
    by_cases hc : compare v hd = true
    · rw [if_pos hc]
      refine List.pairwise_cons.mpr ⟨?_, insertRev_pairwise h v t ht⟩
      intro b hb
      rcases List.mem_cons.mp ((insertRev_perm compare v t).mem_iff.mp hb) with he | hm
      · rw [he]
        exact swo_asymm h hc
      · exact hhd b hm
    · rw [if_neg hc]
      refine List.pairwise_cons.mpr ⟨?_, hacc⟩
      intro b hb
      rcases List.mem_cons.mp hb with he | hm
      · rw [he]
        simpa using hc
      · cases hv : compare v b with
        | false => rfl
        | true =>
          rcases h.2.2 v b hd hv with h1 | h1
          · exact absurd h1 hc
          · rw [hhd b hm] at h1
            exact Bool.noConfusion h1

theorem insertRev_filter_pos {compare : α → α → Bool} (h : IsSWO compare) (x v : α)
    (he : eqv compare x v = true) :
    ∀ acc : List α,
      (insertRev compare v acc).filter (eqv compare x) =
        v :: acc.filter (eqv compare x)
  | [] => by
    rw [insertRev, List.filter_cons, if_pos he]
  | hd :: t => by
    rw [insertRev]
    by_cases hc : compare v hd = true
    · have hxhd : eqv compare x hd = false := by
        cases hv : eqv compare x hd with
        | false => rfl
        | true =>
          have hxv : compare v x = false := by
            have hb : (!compare x v && !compare v x) = true := he
            simp only [Bool.and_eq_true, Bool.not_eq_true'] at hb
            exact hb.2
          have hxh : compare x hd = false := by
            have hb : (!compare x hd && !compare hd x) = true := hv
            simp only [Bool.and_eq_true, Bool.not_eq_true'] at hb
            exact hb.1
          rcases h.2.2 v hd x hc with h1 | h1
          · rw [hxv] at h1
            exact Bool.noConfusion h1
          · rw [hxh] at h1
            exact Bool.noConfusion h1
      rw [if_pos hc, List.filter_cons, if_neg (by simp [hxhd]),
        insertRev_filter_pos h x v he t, List.filter_cons, if_neg (by simp [hxhd])]
    · rw [if_neg hc, List.filter_cons, if_pos he]

theorem insertRev_filter_neg {compare : α → α → Bool} (x v : α)
    (he : eqv compare x v = false) :
    ∀ acc : List α,
      (insertRev compare v acc).filter (eqv compare x) = acc.filter (eqv compare x)
  | [] => by
    rw [insertRev, List.filter_cons, if_neg (by simp [he])]
  | hd :: t => by
    rw [insertRev]
    by_cases hc : compare v hd = true
    · rw [if_pos hc, List.filter_cons, insertRev_filter_neg x v he t,
        List.filter_cons]
    · rw [if_neg hc, List.filter_cons, if_neg (by simp [he])]

theorem insertLoop_perm (compare : α → α → Bool) :
    ∀ (todo acc : List α),
      List.Perm (insertLoop compare acc todo) (acc.reverse ++ todo)
  | [], acc => by simp [insertLoop]
  | y :: ys, acc => by
    rw [insertLoop]
    have h1 := insertLoop_perm compare ys (insertRev compare y acc)
    have h2 : List.Perm (insertRev compare y acc).reverse (y :: acc) :=
      ((insertRev compare y acc).reverse_perm).trans (insertRev_perm compare y acc)
    refine h1.trans ((h2.append_right ys).trans ?_)
    show List.Perm (y :: (acc ++ ys)) (acc.reverse ++ y :: ys)
    refine (List.Perm.cons y ((acc.reverse_perm.symm).append_right ys)).trans ?_
    exact List.perm_middle.symm

theorem insertLoop_sorted {compare : α → α → Bool} (h : IsSWO compare) :
    ∀ (todo acc : List α), acc.Pairwise (fun a b => compare a b = false) →
      sortedBy compare (insertLoop compare acc todo)
  | [], acc, hacc => by
    rw [insertLoop, sortedBy]
    exact List.pairwise_reverse.mpr hacc
  | y :: ys, acc, hacc =>
    insertLoop_sorted h ys _ (insertRev_pairwise h y acc hacc)

theorem insertLoop_filter {compare : α → α → Bool} (h : IsSWO compare) (x : α) :
    ∀ (todo acc : List α),
      (insertLoop compare acc todo).filter (eqv compare x) =
        (acc.reverse ++ todo).filter (eqv compare x)
  | [], acc => by rw [insertLoop, List.append_nil]
  | y :: ys, acc => by
    rw [insertLoop, insertLoop_filter h x ys (insertRev compare y acc),
      List.filter_append, List.filter_append, List.filter_reverse,
      List.filter_reverse]
    by_cases he : eqv compare x y = true
    · rw [insertRev_filter_pos h x y he acc, List.filter_cons, if_pos he]
      simp
    · have he' : eqv compare x y = false := by simpa using he
      rw [insertRev_filter_neg x y he' acc, List.filter_cons, if_neg he]

theorem insertLoop_of_sorted (compare : α → α → Bool) :
    ∀ (todo : List α) (hd : α) (acc : List α),
      (∀ y ∈ todo, compare y hd = false) →
      todo.Pairwise (fun a b => compare b a = false) →
      insertLoop compare (hd :: acc) todo = (hd :: acc).reverse ++ todo
  | [], hd, acc, _, _ => by simp [insertLoop]
  | y :: ys, hd, acc, hcmp, hsorted => by
    rw [insertLoop, insertRev, if_neg (by simp [hcmp y (by simp)])]
    rw [insertLoop_of_sorted compare ys y (hd :: acc)
      (fun z hz => (List.pairwise_cons.mp hsorted).1 z hz)
      (List.pairwise_cons.mp hsorted).2]
    simp

theorem insertion_sort_perm (compare : α → α → Bool) (l : List α) :
    List.Perm (insertion_sort compare l) l := by
  cases l with
  | nil => exact List.Perm.refl _
  | cons x xs =>
    rw [insertion_sort]
    have := insertLoop_perm compare xs [x]
    simpa using this

theorem insertion_sort_sorted {compare : α → α → Bool} (h : IsSWO compare)
    (l : List α) : sortedBy compare (insertion_sort compare l) := by
  cases l with
  | nil => exact List.Pairwise.nil
  | cons x xs => exact insertLoop_sorted h xs [x] (by simp)

theorem insertion_sort_stable {compare : α → α → Bool} (h : IsSWO compare)
    (x : α) (l : List α) :
    (insertion_sort compare l).filter (eqv compare x) = l.filter (eqv compare x) := by
  cases l with
  | nil => rfl
  | cons y ys =>
    rw [insertion_sort, insertLoop_filter h x ys [y]]
    rfl

theorem insertion_sort_of_sorted (compare : α → α → Bool) (l : List α)
    (h : sortedBy compare l) : insertion_sort compare l = l := by
  cases l with
  | nil => rfl
  | cons x xs =>
    rw [insertion_sort, insertLoop_of_sorted compare xs x []
      (fun y hy => (List.pairwise_cons.mp h).1 y hy)
      (List.pairwise_cons.mp h).2]
    rfl

/-! ## Glue lemmas for the claims -/

theorem stableSort_key_congr (B : Nat) (key key2 : α → Nat) (l : List α)
    (h : ∀ x ∈ l, key x = key2 x) :
    stableSortByKey B key l = stableSortByKey B key2 l := by
  rw [stableSortByKey, stableSortByKey]
  apply blocks_congr
  intro k _
  apply List.filter_congr
  intro x hx
  rw [h x hx]

theorem stableSort_perm [DecidableEq α] (B : Nat) (key : α → Nat) (l : List α)
    (hkey : ∀ x ∈ l, key x < B) : List.Perm (stableSortByKey B key l) l :=
  perm_of_filter_key key _ l fun k => stableSort_filter_key B key l hkey k

theorem stableSort_of_sorted (B : Nat) (key : α → Nat) (l : List α)
    (hkey : ∀ x ∈ l, key x < B) (hs : l.Pairwise fun a b => key a ≤ key b) :
    stableSortByKey B key l = l :=
  stable_sort_unique key _ l (stableSort_sorted B key l) hs
    fun k => stableSort_filter_key B key l hkey k

theorem radix_sort_of_sorted (Pass N : Nat) (getter : α → Nat) [Inhabited α]
    (l : List α) (hdvd : N % Pass = 0)
    (hs : l.Pairwise fun a b => getter a % 2 ^ N ≤ getter b % 2 ^ N) :
    radix_sort Pass N getter l = some l := by
  rw [radix_sort_eq_stableSort Pass N getter l hdvd,
    stableSort_of_sorted _ _ _
      (fun x _ => Nat.mod_lt _ (Nat.pos_pow_of_pos _ (by omega))) hs]

theorem sorted_perm_eq {compare : α → α → Bool}
    (hanti : ∀ a b : α, compare a b = false → compare b a = false → a = b)
    (l₁ l₂ : List α) (hp : List.Perm l₁ l₂)
    (h₁ : sortedBy compare l₁) (h₂ : sortedBy compare l₂) : l₁ = l₂ := by
  haveI : IsAntisymm α (fun a b => compare b a = false) :=
    ⟨fun a b hab hba => hanti a b hba hab⟩
  exact List.eq_of_perm_of_sorted hp h₁ h₂

theorem isSWO_natlt : IsSWO (fun a b : Nat => decide (a < b)) := by
  refine ⟨fun a => by simp, fun a b c hab hbc => ?_, fun a b c hab => ?_⟩
  · simp only [decide_eq_true_eq] at hab hbc ⊢
    omega
  · simp only [decide_eq_true_eq] at hab ⊢
    omega

theorem isSWO_fstlt : IsSWO (fun a b : Nat × Nat => decide (a.1 < b.1)) := by
  refine ⟨fun a => by simp, fun a b c hab hbc => ?_, fun a b c hab => ?_⟩
  · simp only [decide_eq_true_eq] at hab hbc ⊢
    omega
  · simp only [decide_eq_true_eq] at hab ⊢
    omega

theorem insertion_impl_contract :
    WrappedSortContract (fun (compare : α → α → Bool) l => insertion_sort compare l) :=
  fun compare l h => ⟨insertion_sort_perm compare l, insertion_sort_sorted h l⟩

theorem sum_replicate_zero : ∀ n : Nat, (List.replicate n 0).sum = 0
  | 0 => rfl
  | n + 1 => by rw [List.replicate, List.sum_cons, sum_replicate_zero n]

/-! ## The claims -/

/-- C1: for every finite range, every `Pass` dividing `N`, and every getter
mapping elements to keys in `[0, 2^N)`, `radix_sort<Pass,N>` succeeds and
reorders the range into a permutation that is non-decreasing by the key,
preserves the relative order of equal keys (stability), and coincides with
every stable sort by the same key. -/
theorem claim_C1_radix_is_stable_sort [DecidableEq α] [Inhabited α]
    (Pass N : Nat) (getter : α → Nat) (l : List α)
    (hdvd : N % Pass = 0) (hkey : ∀ x ∈ l, getter x < 2 ^ N) :
    ∃ r, radix_sort Pass N getter l = some r ∧
      List.Perm r l ∧
      r.Pairwise (fun a b => getter a ≤ getter b) ∧
      (∀ k, r.filter (fun x => getter x == k) = l.filter (fun x => getter x == k)) ∧
      ∀ out, out.Pairwise (fun a b => getter a ≤ getter b) →
        (∀ k, out.filter (fun x => getter x == k) = l.filter (fun x => getter x == k)) →
        out = r := by
  have hmodeq : ∀ x ∈ l, getter x % 2 ^ N = getter x :=
    fun x hx => Nat.mod_eq_of_lt (hkey x hx)
  have hr : radix_sort Pass N getter l = some (stableSortByKey (2 ^ N) getter l) := by
    rw [radix_sort_eq_stableSort Pass N getter l hdvd,
      stableSort_key_congr (2 ^ N) (fun x => getter x % 2 ^ N) getter l hmodeq]
  refine ⟨stableSortByKey (2 ^ N) getter l, hr,
    stableSort_perm (2 ^ N) getter l hkey,
    stableSort_sorted (2 ^ N) getter l,
    fun k => stableSort_filter_key (2 ^ N) getter l hkey k, ?_⟩
  intro out hsort hfilt
  exact stable_sort_unique getter out _ hsort (stableSort_sorted (2 ^ N) getter l)
    fun k => (hfilt k).trans (stableSort_filter_key (2 ^ N) getter l hkey k).symm

theorem claim_C1_witness :
    (8 % 4 = 0) ∧ (∀ x ∈ ([200, 3, 45, 0, 255, 128] : List Nat), x < 2 ^ 8) ∧
    ∃ r, radix_sort 4 8 (fun n : Nat => n) [200, 3, 45, 0, 255, 128] = some r ∧
      List.Perm r [200, 3, 45, 0, 255, 128] ∧
      r.Pairwise (fun a b : Nat => a ≤ b) ∧
      (∀ k, r.filter (fun x => x == k) =
        List.filter (fun x => x == k) [200, 3, 45, 0, 255, 128]) ∧
      ∀ out, out.Pairwise (fun a b : Nat => a ≤ b) →
        (∀ k, out.filter (fun x => x == k) =
          List.filter (fun x => x == k) [200, 3, 45, 0, 255, 128]) →
        out = r :=
  ⟨by decide, by decide,
    claim_C1_radix_is_stable_sort 4 8 (fun n : Nat => n) [200, 3, 45, 0, 255, 128]
      (by decide) (by decide)⟩

/-- C2: for every finite range and every strict-weak-order comparator,
`insertion_sort` reorders the range in place into a permutation that is
non-decreasing under the comparator, and elements equal under the
comparator retain their original relative order. -/
theorem claim_C2_insertion_is_stable_sort (compare : α → α → Bool) (l : List α)
    (h : IsSWO compare) :
    List.Perm (insertion_sort compare l) l ∧
    sortedBy compare (insertion_sort compare l) ∧
    ∀ x, (insertion_sort compare l).filter (eqv compare x) =
      l.filter (eqv compare x) :=
  ⟨insertion_sort_perm compare l, insertion_sort_sorted h l,
    fun x => insertion_sort_stable h x l⟩

theorem claim_C2_witness :
    IsSWO (fun a b : Nat => decide (a < b)) ∧
    (List.Perm (insertion_sort (fun a b : Nat => decide (a < b)) [5, 3, 4, 1, 2])
        [5, 3, 4, 1, 2] ∧
      sortedBy (fun a b : Nat => decide (a < b))
        (insertion_sort (fun a b : Nat => decide (a < b)) [5, 3, 4, 1, 2]) ∧
      ∀ x, (insertion_sort (fun a b : Nat => decide (a < b))
            [5, 3, 4, 1, 2]).filter (eqv (fun a b : Nat => decide (a < b)) x) =
          List.filter (eqv (fun a b : Nat => decide (a < b)) x) [5, 3, 4, 1, 2]) :=
  ⟨isSWO_natlt,
    claim_C2_insertion_is_stable_sort (fun a b : Nat => decide (a < b))
      [5, 3, 4, 1, 2] isSWO_natlt⟩

/-- C3 counterexample: the claim asserts that a single-element range skips
the radix engine's buffer-allocating branch; in the code the branch guard is
`first < last`, which holds for a single-element range, so the branch is
entered. The claim, stated as "every range of length at most one leaves the
allocating branch unentered", is false at the input `[0]`. -/
theorem claim_C3_counterexample :
    ¬ ∀ l : List Nat, l.length ≤ 1 → radix_enters_alloc l = false :=
  fun h => absurd (h [0] (by decide)) (by decide)

/-- C3 (amended): empty ranges are no-ops for all three engines and skip the
radix engine's buffer-allocating branch; single-element ranges are also
observational no-ops for all three engines, but the radix engine does enter
its allocating branch for them, since the guard `first < last` excludes only
empty ranges. -/
theorem claim_C3_amended (Pass N : Nat) (getter : α → Nat) [Inhabited α]
    (compare : α → α → Bool) (a : α)
    (sortImpl : (α → α → Bool) → List α → List α) :
    insertion_sort compare ([] : List α) = [] ∧
    insertion_sort compare [a] = [a] ∧
    radix_sort Pass N getter ([] : List α) = some [] ∧
    radix_enters_alloc ([] : List α) = false ∧
    (N % Pass = 0 → radix_sort Pass N getter [a] = some [a]) ∧
    radix_enters_alloc [a] = true ∧
    (WrappedSortContract sortImpl → IsSWO compare →
      std_sort sortImpl compare ([] : List α) = [] ∧
      std_sort sortImpl compare [a] = [a]) := by
  refine ⟨rfl, rfl, rfl, rfl, ?_, rfl, ?_⟩
  · intro hdvd
    exact radix_sort_of_sorted Pass N getter [a] hdvd (by simp)
  · intro hcon hswo
    exact ⟨(hcon compare [] hswo).1.eq_nil,
      List.perm_singleton.mp (hcon compare [a] hswo).1⟩

theorem claim_C3_witness :
    (8 % 4 = 0) ∧
    radix_sort 4 8 (fun n : Nat => n) [7] = some [7] ∧
    radix_enters_alloc ([7] : List Nat) = true ∧
    radix_enters_alloc ([] : List Nat) = false ∧
    std_sort (fun (c : Nat → Nat → Bool) l => insertion_sort c l)
      (fun a b : Nat => decide (a < b)) [7] = [7] := by
  have h := claim_C3_amended 4 8 (fun n : Nat => n)
    (fun a b : Nat => decide (a < b)) 7
    (fun (c : Nat → Nat → Bool) l => insertion_sort c l)
  exact ⟨by decide, h.2.2.2.2.1 (by decide), h.2.2.2.2.2.1, h.2.2.2.1,
    (h.2.2.2.2.2.2 insertion_impl_contract isSWO_natlt).2⟩

/-- C4: the passes of `radix_sort<Pass,N>` ping-pong between the caller's
range and the auxiliary buffer; after all `N / Pass` passes the final data
sits in the auxiliary buffer exactly when the pass count is odd, in which
case the engine copies it back into the caller's range, and when the count
is even no copy is needed — and concretely
`radix_sort<8,8>([10,5,7])` (one pass, odd) yields `[5,7,10]`. -/
theorem claim_C4_pass_parity_copy_back (Pass N : Nat) (getter : α → Nat)
    [Inhabited α] (l : List α) (hdvd : N % Pass = 0) :
    (∃ rng2 aux2,
      passLoop Pass getter (N / Pass) 0 (l, List.replicate l.length default) =
        some (rng2, aux2) ∧
      ((N / Pass) % 2 = 0 → rng2 = passIter Pass getter (N / Pass) l) ∧
      ((N / Pass) % 2 = 1 → aux2 = passIter Pass getter (N / Pass) l) ∧
      radix_sort Pass N getter l =
        some (if (N / Pass) % 2 = 1 then aux2 else rng2)) ∧
    radix_sort 8 8 (fun n : Nat => n) [10, 5, 7] = some [5, 7, 10] := by
  constructor
  · obtain ⟨rng2, aux2, hrun, _, _, he, ho⟩ :=
      passLoop_eq Pass getter l (N / Pass) 0 l (List.replicate l.length default)
        rfl (List.length_replicate _ _) (fun _ => rfl) (fun hc => by omega)
    have he' : (N / Pass) % 2 = 0 → rng2 = passIter Pass getter (N / Pass) l := by
      intro hc
      have := he (by simpa using hc)
      simpa using this
    have ho' : (N / Pass) % 2 = 1 → aux2 = passIter Pass getter (N / Pass) l := by
      intro hc
      have := ho (by simpa using hc)
      simpa using this
    refine ⟨rng2, aux2, hrun, he', ho', ?_⟩
    rw [radix_sort_eq_passIter]
    rcases Nat.mod_two_eq_zero_or_one (N / Pass) with hpar | hpar
    · rw [if_neg (by omega), he' hpar]
    · rw [if_pos hpar, ho' hpar]
  · decide

theorem claim_C4_witness :
    (8 % 8 = 0) ∧ radix_sort 8 8 (fun n : Nat => n) [10, 5, 7] = some [5, 7, 10] :=
  ⟨by decide,
    (claim_C4_pass_parity_copy_back 8 8 (fun n : Nat => n) [10, 5, 7] (by decide)).2⟩

/-- C5: a single bucketize pass (the private `radix_sort::sort`), run with a
destination buffer of the source's length, succeeds and produces a
destination grouped by ascending windowed key
`(getter(x) >> pass*Pass) & ((1 << Pass) - 1)`, in which elements with the
same windowed key keep the relative order they had in the source. -/
theorem claim_C5_bucketize_stable (Pass pass : Nat) (getter : α → Nat)
    (src out : List α) (hlen : out.length = src.length) :
    ∃ out2, radix_sort_pass Pass getter src out pass = some out2 ∧
      out2.Pairwise (fun a b =>
        bucketOf Pass (pass * Pass) (getter a) ≤
          bucketOf Pass (pass * Pass) (getter b)) ∧
      ∀ b, out2.filter (fun x => bucketOf Pass (pass * Pass) (getter x) == b) =
        src.filter (fun x => bucketOf Pass (pass * Pass) (getter x) == b) := by
  refine ⟨bucketPass Pass (pass * Pass) getter src,
    radix_sort_pass_eq Pass getter src out pass hlen, ?_, ?_⟩
  · rw [bucketPass]
    exact stableSort_sorted _ _ _
  · intro b
    rw [bucketPass]
    exact stableSort_filter_key _ _ _ (fun x _ => bucketOf_lt _ _ _) b

theorem claim_C5_witness :
    (([0, 0, 0] : List Nat).length = ([3, 1, 3] : List Nat).length) ∧
    ∃ out2, radix_sort_pass 4 (fun n : Nat => n) [3, 1, 3] [0, 0, 0] 0 = some out2 ∧
      out2.Pairwise (fun a b : Nat =>
        bucketOf 4 (0 * 4) a ≤ bucketOf 4 (0 * 4) b) ∧
      ∀ b, out2.filter (fun x => bucketOf 4 (0 * 4) x == b) =
        List.filter (fun x => bucketOf 4 (0 * 4) x == b) [3, 1, 3] :=
  ⟨rfl, claim_C5_bucketize_stable 4 0 (fun n : Nat => n) [3, 1, 3] [0, 0, 0] rfl⟩

/-- C6: for every range and every pass, the sum of the `2^Pass` bucket
counts tallied by the tally loop equals the length of the range being
bucketized. -/
theorem claim_C6_bucket_counts_sum (Pass pass : Nat) (getter : α → Nat)
    (src : List α) :
    (countLoop Pass (pass * Pass) getter src
        (List.replicate (1 <<< Pass) 0)).sum = src.length := by
  rw [countLoop_sum, sum_replicate_zero, Nat.zero_add]
  intro x
  rw [List.length_replicate]
  exact bucketOf_lt _ _ _

/-- C7: the engine `radix_sort<Pass,N>` carries
`static_assert((N % Pass) == 0)`: when `N mod Pass ≠ 0` no instantiation of
the engine exists (the violation is a definition-time rejection, never a
runtime error), and when `N mod Pass = 0` the engine is instantiable. -/
theorem claim_C7_static_assert (Pass N : Nat) :
    (N % Pass ≠ 0 → IsEmpty (RadixSortEngine Pass N)) ∧
    (N % Pass = 0 → Nonempty (RadixSortEngine Pass N)) :=
  ⟨fun h => ⟨fun e => h e.static_assert_ok⟩, fun h => ⟨⟨h⟩⟩⟩

theorem claim_C7_witness :
    ((8 % 3 ≠ 0) ∧ IsEmpty (RadixSortEngine 3 8)) ∧
    ((8 % 4 = 0) ∧ Nonempty (RadixSortEngine 4 8)) :=
  ⟨⟨by decide, (claim_C7_static_assert 3 8).1 (by decide)⟩,
    ⟨by decide, (claim_C7_static_assert 4 8).2 (by decide)⟩⟩

/-- C8 counterexample: with `std_sort` modelled from the spec — a wrapper
around an external primitive promising only a sorted permutation, with no
stability guarantee — idempotence on an already-sorted range fails: a
conforming primitive may swap distinct elements that the comparator deems
equivalent, as at the sorted input `[(1,0),(1,1)]` under comparison by first
component. -/
theorem claim_C8_counterexample :
    ¬ ∀ sortImpl : (Nat × Nat → Nat × Nat → Bool) →
          List (Nat × Nat) → List (Nat × Nat),
        WrappedSortContract sortImpl →
        ∀ (compare : Nat × Nat → Nat × Nat → Bool) (l : List (Nat × Nat)),
          IsSWO compare → sortedBy compare l → std_sort sortImpl compare l = l := by
  intro h
  have hbad : WrappedSortContract
      (fun (compare : Nat × Nat → Nat × Nat → Bool) l =>
        insertion_sort compare l.reverse) :=
    fun compare l hc =>
      ⟨(insertion_sort_perm compare l.reverse).trans l.reverse_perm,
        insertion_sort_sorted hc l.reverse⟩
  have hres := h _ hbad (fun a b => decide (a.1 < b.1)) [(1, 0), (1, 1)]
    isSWO_fstlt (by unfold sortedBy; decide)
  exact absurd hres (by decide)

/-- C8 (amended): sorting an already-sorted range with `insertion_sort` or
`radix_sort` yields an observably identical sequence, and applying either
engine twice equals applying it once; for `std_sort`, which delegates to an
external primitive with no stability guarantee, the same holds whenever the
comparator never deems two distinct elements equivalent. -/
theorem claim_C8_amended (Pass N : Nat) (getter : α → Nat) [Inhabited α]
    (compare : α → α → Bool) (l : List α)
    (sortImpl : (α → α → Bool) → List α → List α) :
    (sortedBy compare l → insertion_sort compare l = l) ∧
    (IsSWO compare →
      insertion_sort compare (insertion_sort compare l) =
        insertion_sort compare l) ∧
    (N % Pass = 0 →
      (l.Pairwise (fun a b => getter a % 2 ^ N ≤ getter b % 2 ^ N) →
        radix_sort Pass N getter l = some l) ∧
      ∀ r, radix_sort Pass N getter l = some r →
        radix_sort Pass N getter r = some r) ∧
    (WrappedSortContract sortImpl → IsSWO compare →
      (∀ a b : α, compare a b = false → compare b a = false → a = b) →
      sortedBy compare l → std_sort sortImpl compare l = l) := by
  refine ⟨insertion_sort_of_sorted compare l, ?_, ?_, ?_⟩
  · intro h
    exact insertion_sort_of_sorted compare _ (insertion_sort_sorted h _)
  · intro hdvd
    refine ⟨radix_sort_of_sorted Pass N getter l hdvd, ?_⟩
    intro r hr
    rw [radix_sort_eq_stableSort Pass N getter l hdvd] at hr
    have hre : r = stableSortByKey (2 ^ N) (fun x => getter x % 2 ^ N) l :=
      (Option.some.inj hr).symm
    rw [hre]
    exact radix_sort_of_sorted Pass N getter _ hdvd (stableSort_sorted _ _ _)
  · intro hcon hswo hanti hsorted
    obtain ⟨hperm, hsorted2⟩ := hcon compare l hswo
    exact sorted_perm_eq hanti _ _ hperm hsorted2 hsorted

theorem claim_C8_witness :
    insertion_sort (fun a b : Nat => decide (a < b)) [1, 2, 3] = [1, 2, 3] ∧
    radix_sort 4 4 (fun n : Nat => n) [1, 2, 3] = some [1, 2, 3] ∧
    std_sort (fun (c : Nat → Nat → Bool) l => insertion_sort c l)
      (fun a b : Nat => decide (a < b)) [1, 2, 3] = [1, 2, 3] := by
  have h := claim_C8_amended 4 4 (fun n : Nat => n)
    (fun a b : Nat => decide (a < b)) [1, 2, 3]
    (fun (c : Nat → Nat → Bool) l => insertion_sort c l)
  refine ⟨h.1 (by unfold sortedBy; decide), (h.2.2.1 (by decide)).1 (by decide),
    h.2.2.2 insertion_impl_contract isSWO_natlt ?_ (by unfold sortedBy; decide)⟩
  intro a b hab hba
  simp only [decide_eq_false_iff_not, Nat.not_lt] at hab hba
  omega

/-- C9: `radix_sort<Pass,N>` orders only by the low `N` bits of the getter's
value: for every range and getter the output is exactly the stable sort by
the key `getter(element) mod 2^N`, which is non-decreasing in that key and
preserves, for every key value, the source order of the elements carrying
it — so values differing only in bits at positions `≥ N` are treated as
equal keys. -/
theorem claim_C9_low_bits_only (Pass N : Nat) (getter : α → Nat) [Inhabited α]
    (l : List α) (hdvd : N % Pass = 0) :
    radix_sort Pass N getter l =
      some (stableSortByKey (2 ^ N) (fun x => getter x % 2 ^ N) l) ∧
    (stableSortByKey (2 ^ N) (fun x => getter x % 2 ^ N) l).Pairwise
      (fun a b => getter a % 2 ^ N ≤ getter b % 2 ^ N) ∧
    ∀ k, (stableSortByKey (2 ^ N) (fun x => getter x % 2 ^ N) l).filter
        (fun x => getter x % 2 ^ N == k) =
      l.filter (fun x => getter x % 2 ^ N == k) :=
  ⟨radix_sort_eq_stableSort Pass N getter l hdvd,
    stableSort_sorted _ _ _,
    fun k => stableSort_filter_key _ _ _
      (fun x _ => Nat.mod_lt _ (Nat.pos_pow_of_pos _ (by omega))) k⟩

theorem claim_C9_witness :
    (4 % 4 = 0) ∧ radix_sort 4 4 (fun n : Nat => n) [17, 1] = some [17, 1] := by
  have h := claim_C9_low_bits_only 4 4 (fun n : Nat => n) [17, 1] (by decide)
  refine ⟨by decide, ?_⟩
  rw [h.1]
  decide

/-- C10: every access inside a bucketize pass is in bounds: the masked
bucket value is always below `2^Pass` (so the count and offset arrays are
never indexed out of range), and the pass, run with a destination of the
source's length, never reaches the out-of-bounds branch of the embedding —
it always returns `some`. -/
theorem claim_C10_pass_in_bounds (Pass pass : Nat) (getter : α → Nat)
    (src out : List α) (hlen : out.length = src.length) :
    (∀ x : α, bucketOf Pass (pass * Pass) (getter x) < 1 <<< Pass) ∧
    (radix_sort_pass Pass getter src out pass).isSome = true :=
  ⟨fun x => bucketOf_lt _ _ _, by
    rw [radix_sort_pass_eq Pass getter src out pass hlen]
    rfl⟩

theorem claim_C10_witness :
    (([0, 0] : List Nat).length = ([9, 4] : List Nat).length) ∧
    (∀ x : Nat, bucketOf 4 (0 * 4) x < 1 <<< 4) ∧
    (radix_sort_pass 4 (fun n : Nat => n) [9, 4] [0, 0] 0).isSome = true :=
  ⟨rfl, claim_C10_pass_in_bounds 4 0 (fun n : Nat => n) [9, 4] [0, 0] rfl⟩

example : insertion_sort (fun a b : Nat => decide (a < b)) [5, 3, 4, 1, 2] = [1, 2, 3, 4, 5] := by
  decide

example : radix_sort 8 8 (fun n => n) [10, 5, 7] = some [5, 7, 10] := by decide

example : radix_sort 4 8 (fun n => n) [200, 3, 45, 0, 255, 128] =
    some [0, 3, 45, 128, 200, 255] := by decide

example : radix_sort 1 1 (fun p : Nat × Nat => p.1) [(1, 10), (1, 11), (0, 12)] =
    some [(0, 12), (1, 10), (1, 11)] := by decide

example : stableSortByKey 256 (fun n => n % 256) [200, 3, 45, 0, 255, 128] =
    [0, 3, 45, 128, 200, 255] := by decide

end Entt
